import Mathlib

/-!
Verification of the cognito-srp arithmetic and protocol engine.

The development shallowly embeds the two source files of the repository:

* src/bigIntUtils.ts : toZn, eGcd, modInv, modPow over arbitrary-precision
  signed integers (JavaScript bigint), modelled as Lean Int.  The JavaScript
  remainder operator on bigint truncates toward zero, so it is modelled with
  Int.tmod; fallible functions (which throw RangeError) are modelled with
  Except.  While loops are modelled by structurally recursive functions with
  an explicit iteration bound (fuel); the bound chosen at each call site
  dominates the trip count of the loop, which is proved separately, so the
  out-of-fuel branch is unreachable.

* src/index.ts : the CognitoSRP class.  The current (native bigint) variant
  of the class is the program; the adjacent legacy callback variant of the
  same file is embedded where the claims reference it.  Hex strings produced
  by toString(16), padding and parsing are modelled as lists of nibble
  values; the minus sign character that toString(16) emits for a negative
  bigint is modelled as a distinguished character (Option with none for the
  sign, some d for a hex digit of value d).  The SHA-256 and HMAC primitives
  and the randomness source are external collaborators and appear as
  parameters.
-/

namespace CognitoSRP

/-! ## Hexadecimal digit strings -/

/-- Little-endian base-16 digits of n, with an explicit structural fuel so
that the definition evaluates by kernel reduction.  Fuel n is always enough
since the argument strictly shrinks by division by 16. -/
def hexDigitsAux : ℕ → ℕ → List ℕ
  | 0, _ => []
  | _, 0 => []
  | f + 1, n => (n % 16) :: hexDigitsAux f (n / 16)

/-- Big-endian hex digit values of n, exactly as JavaScript
toString(16) renders a nonnegative bigint: the digits of n, and the single
digit 0 when n is zero. -/
def hexDigits (n : ℕ) : List ℕ :=
  if n = 0 then [0] else (hexDigitsAux n n).reverse

/-- Numeric value of a big-endian list of hex digit values, as BigInt
hex-string conversion computes it. -/
def fromHex (l : List ℕ) : ℕ :=
  l.foldl (fun acc d => 16 * acc + d) 0

theorem hexDigitsAux_eq_digits : ∀ n f : ℕ, n ≤ f → hexDigitsAux f n = Nat.digits 16 n := by
  intro n
  induction n using Nat.strong_induction_on with
  | _ n ih =>
    intro f hf
    match f, n with
    | 0, 0 => simp [hexDigitsAux]
    | 0, n + 1 => omega
    | f + 1, 0 => simp [hexDigitsAux]
    | f + 1, n + 1 =>
      have hstep : hexDigitsAux (f + 1) (n + 1) =
          ((n + 1) % 16) :: hexDigitsAux f ((n + 1) / 16) := rfl
      rw [hstep, Nat.digits_def' (by norm_num : (1:ℕ) < 16) (Nat.succ_pos n)]
      congr 1
      exact ih ((n + 1) / 16) (Nat.div_lt_self (Nat.succ_pos n) (by norm_num)) f
        (by omega)

theorem hexDigits_eq (n : ℕ) :
    hexDigits n = if n = 0 then [0] else (Nat.digits 16 n).reverse := by
  unfold hexDigits
  by_cases h : n = 0
  · simp [h]
  · simp [h, hexDigitsAux_eq_digits n n le_rfl]

theorem foldlHex_acc (l : List ℕ) :
    ∀ a : ℕ, l.foldl (fun acc d => 16 * acc + d) a = a * 16 ^ l.length + fromHex l := by
  induction l with
  | nil => intro a; simp [fromHex]
  | cons d t ih =>
    intro a
    show t.foldl _ (16 * a + d) = _
    rw [ih (16 * a + d)]
    have hd : fromHex (d :: t) = d * 16 ^ t.length + fromHex t := by
      show t.foldl _ (16 * 0 + d) = _
      rw [ih (16 * 0 + d)]
      ring
    rw [hd]
    simp [List.length_cons]
    ring

theorem fromHex_cons (d : ℕ) (t : List ℕ) :
    fromHex (d :: t) = d * 16 ^ t.length + fromHex t := by
  show t.foldl _ (16 * 0 + d) = _
  rw [foldlHex_acc]
  ring

theorem fromHex_nil : fromHex [] = 0 := rfl

theorem fromHex_zero_cons (t : List ℕ) : fromHex (0 :: t) = fromHex t := by
  rw [fromHex_cons]; ring

theorem fromHex_lt (l : List ℕ) (h : ∀ d ∈ l, d < 16) : fromHex l < 16 ^ l.length := by
  induction l with
  | nil => simp [fromHex]
  | cons d t ih =>
    rw [fromHex_cons]
    have hd : d < 16 := h d (List.mem_cons_self d t)
    have ht : fromHex t < 16 ^ t.length := ih fun x hx => h x (List.mem_cons_of_mem d hx)
    have : d * 16 ^ t.length + fromHex t < (d + 1) * 16 ^ t.length := by nlinarith
    calc d * 16 ^ t.length + fromHex t < (d + 1) * 16 ^ t.length := this
      _ ≤ 16 * 16 ^ t.length := by
          have : d + 1 ≤ 16 := hd
          exact Nat.mul_le_mul_right _ this
      _ = 16 ^ (d :: t).length := by rw [List.length_cons]; ring

theorem fromHex_append_singleton (l : List ℕ) (d : ℕ) :
    fromHex (l ++ [d]) = 16 * fromHex l + d := by
  unfold fromHex
  rw [List.foldl_append]
  rfl

theorem fromHex_reverse_eq_ofDigits (l : List ℕ) :
    fromHex l.reverse = Nat.ofDigits 16 l := by
  induction l with
  | nil => simp [fromHex]
  | cons d t ih =>
    rw [List.reverse_cons, fromHex_append_singleton, ih, Nat.ofDigits_cons]
    ring

theorem fromHex_hexDigits (n : ℕ) : fromHex (hexDigits n) = n := by
  rw [hexDigits_eq]
  by_cases h : n = 0
  · simp [h, fromHex_cons, fromHex]
  · simp only [h, if_false]
    rw [fromHex_reverse_eq_ofDigits, Nat.ofDigits_digits]

theorem hexDigits_ne_nil (n : ℕ) : hexDigits n ≠ [] := by
  rw [hexDigits_eq]
  by_cases h : n = 0
  · simp [h]
  · simp only [h, if_false, ne_eq, List.reverse_eq_nil_iff]
    exact Nat.digits_ne_nil_iff_ne_zero.mpr h

theorem hexDigits_lt (n : ℕ) : ∀ d ∈ hexDigits n, d < 16 := by
  rw [hexDigits_eq]
  by_cases h : n = 0
  · simp [h]
  · simp only [h, if_false]
    intro d hd
    exact Nat.digits_lt_base (by norm_num) (List.mem_reverse.mp hd)

theorem lt_pow_length_hexDigits (n : ℕ) : n < 16 ^ (hexDigits n).length := by
  rw [hexDigits_eq]
  by_cases h : n = 0
  · simp [h]
  · simp only [h, if_false, List.length_reverse]
    exact Nat.lt_base_pow_length_digits (by norm_num)

theorem hexDigits_length_eq (k n : ℕ) (h1 : 16 ^ n ≤ k) (h2 : k < 16 ^ (n + 1)) :
    (hexDigits k).length = n + 1 := by
  have hk : k ≠ 0 := by
    have : 0 < 16 ^ n := pow_pos (by norm_num) n
    omega
  rw [hexDigits_eq]
  simp only [hk, if_false, List.length_reverse]
  rw [Nat.digits_len 16 k (by norm_num) hk, Nat.log_eq_of_pow_le_of_lt_pow h1 h2]

/-! ## src/bigIntUtils.ts -/

/-- Embedding of toZn from src/bigIntUtils.ts: the smallest nonnegative
representative of a modulo n.  The JavaScript remainder on bigint truncates
toward zero, hence Int.tmod.  The guard (n less than 1 throws a RangeError)
is omitted here because every call site in the embedded code has already
established n greater than 1: modPow checks the modulus before calling, and
modInv is only reached from modPow after that check. -/
def toZn (a n : ℤ) : ℤ :=
  let aZn := Int.tmod a n
  if aZn < 0 then aZn + n else aZn

/-- The while loop of eGcd from src/bigIntUtils.ts, one constructor of fuel
per iteration.  The entry guard of eGcd establishes a and b at least 1, and
the loop keeps both nonnegative (the new a is b mod a, the new b is the old
a), so the two loop variables are carried as naturals and the JavaScript
truncating bigint division and remainder coincide with Nat division and
remainder.  The out-of-fuel branch returns the current state; fuel a + 1
dominates the trip count because a strictly decreases (claim C10). -/
def eGcdLoop : ℕ → ℕ → ℕ → ℤ → ℤ → ℤ → ℤ → ℤ × ℤ × ℤ
  | 0, _, b, x, y, _, _ => ((b : ℤ), x, y)
  | f + 1, a, b, x, y, u, v =>
    if a = 0 then ((b : ℤ), x, y)
    else eGcdLoop f (b % a) a u v (x - u * ((b / a : ℕ) : ℤ)) (y - v * ((b / a : ℕ) : ℤ))

/-- Embedding of eGcd from src/bigIntUtils.ts. -/
def eGcd (a b : ℤ) : Except String (ℤ × ℤ × ℤ) :=
  if a < 1 ∨ b < 1 then .error "a and b must be > 0"
  else .ok (eGcdLoop (a.toNat + 1) a.toNat b.toNat 0 1 1 0)

/-- Embedding of modInv from src/bigIntUtils.ts; the RangeError thrown when
the gcd is not 1 carries no message. -/
def modInv (a n : ℤ) : Except String ℤ :=
  match eGcd (toZn a n) n with
  | .error e => .error e
  | .ok (g, x, _) => if g ≠ 1 then .error "" else .ok (toZn x n)

/-- The square-and-multiply while loop of modPow from src/bigIntUtils.ts,
one constructor of fuel per iteration.  In each iteration the accumulator is
multiplied by the base when the current exponent bit is 1, then the exponent
is halved and the base squared, exactly in the order of the source.  The
out-of-fuel branch returns the accumulator; fuel y + 1 dominates the trip
count because the exponent strictly halves (claim C10). -/
def modPowLoop : ℕ → ℤ → ℕ → ℤ → ℤ → ℤ
  | 0, _, _, _, r => r
  | f + 1, x, y, m, r =>
    if y = 0 then r
    else modPowLoop f (Int.tmod (x ^ 2) m) (y / 2) m
      (if y % 2 = 1 then Int.tmod (r * x) m else r)

/-- Embedding of modPow from src/bigIntUtils.ts.  For a negative exponent
the source recurses once as modInv (modPow x (-y) m) m on the already
reduced base; that single inner call is inlined here (its own modulus
checks pass and it reduces the base again, which is idempotent). -/
def modPow (x y m : ℤ) : Except String ℤ :=
  if m < 1 then .error "n must be > 0"
  else if m = 1 then .ok 0
  else
    let x1 := toZn x m
    if y < 0 then
      modInv (modPowLoop ((-y).toNat + 1) (toZn x1 m) (-y).toNat m 1) m
    else
      .ok (modPowLoop (y.toNat + 1) x1 y.toNat m 1)

/-- Step-indexed (fuel-limited) run of the eGcd while loop, none meaning the
iteration bound was exhausted before the loop condition became false.  Used
to state termination of the loop (claim C10). -/
def eGcdLoopF : ℕ → ℕ → ℕ → ℤ → ℤ → ℤ → ℤ → Option (ℤ × ℤ × ℤ)
  | 0, _, _, _, _, _, _ => none
  | f + 1, a, b, x, y, u, v =>
    if a = 0 then some ((b : ℤ), x, y)
    else eGcdLoopF f (b % a) a u v (x - u * ((b / a : ℕ) : ℤ)) (y - v * ((b / a : ℕ) : ℤ))

/-- Step-indexed (fuel-limited) run of the modPow while loop, none meaning
the iteration bound was exhausted before the loop condition became false.
Used to state termination of the loop (claim C10). -/
def modPowLoopF : ℕ → ℤ → ℕ → ℤ → ℤ → Option ℤ
  | 0, _, _, _, _ => none
  | f + 1, x, y, m, r =>
    if y = 0 then some r
    else modPowLoopF f (Int.tmod (x ^ 2) m) (y / 2) m
      (if y % 2 = 1 then Int.tmod (r * x) m else r)

/-! ## Arithmetic lemmas about the embedding -/

theorem neg_tmod_eq (a b : ℤ) : Int.tmod (-a) b = -Int.tmod a b := by
  have h1 := Int.tmod_add_tdiv (-a) b
  have h2 := Int.tmod_add_tdiv a b
  rw [Int.neg_tdiv a b] at h1
  linarith

theorem toZn_eq_emod (a n : ℤ) (hn : 0 < n) : toZn a n = a % n := by
  unfold toZn
  have ht : Int.tmod a n + n * a.tdiv n = a := Int.tmod_add_tdiv a n
  have hcong : a % n = Int.tmod a n % n := by
    conv_lhs => rw [← ht]
    rw [Int.add_mul_emod_self_left]
  have hlt : Int.tmod a n < n := Int.tmod_lt_of_pos a hn
  by_cases h : Int.tmod a n < 0
  · simp only [h, if_true]
    have hgt : -n < Int.tmod a n := by
      have h2 : Int.tmod (-a) n < n := Int.tmod_lt_of_pos (-a) hn
      rw [neg_tmod_eq] at h2
      linarith
    rw [hcong]
    have hshift : (Int.tmod a n + n * 1) % n = Int.tmod a n % n :=
      Int.add_mul_emod_self_left (Int.tmod a n) n 1
    rw [← hshift, mul_one]
    exact (Int.emod_eq_of_lt (show (0:ℤ) ≤ Int.tmod a n + n by linarith)
      (show Int.tmod a n + n < n by linarith)).symm
  · simp only [h, if_false]
    push_neg at h
    rw [hcong]
    exact (Int.emod_eq_of_lt h hlt).symm

theorem pow_emod (a : ℤ) (n : ℕ) (m : ℤ) : (a % m) ^ n % m = a ^ n % m := by
  induction n with
  | zero => simp
  | succ k ih =>
    rw [pow_succ, pow_succ, Int.mul_emod, ih, Int.emod_emod_of_dvd _ dvd_rfl,
      ← Int.mul_emod]

theorem tmod_nonneg_eq_emod (a m : ℤ) (ha : 0 ≤ a) (hm : 0 < m) :
    Int.tmod a m = a % m := Int.tmod_eq_emod ha (le_of_lt hm)

theorem modPowLoop_spec :
    ∀ (f y : ℕ) (x r m : ℤ), y < f → 0 < m → 0 ≤ x → 0 ≤ r → r < m →
      modPowLoop f x y m r = r * x ^ y % m := by
  intro f
  induction f with
  | zero => intro y x r m hy; omega
  | succ f ih =>
    intro y x r m hy hm hx hr hrm
    by_cases h0 : y = 0
    · subst h0
      simp only [modPowLoop, if_true]
      rw [pow_zero, mul_one]
      exact (Int.emod_eq_of_lt hr hrm).symm
    · have hred : modPowLoop (f + 1) x y m r =
          modPowLoop f (Int.tmod (x ^ 2) m) (y / 2) m
            (if y % 2 = 1 then Int.tmod (r * x) m else r) := by
        simp only [modPowLoop, h0, if_false]
      rw [hred]
      have hx2 : Int.tmod (x ^ 2) m = x ^ 2 % m :=
        tmod_nonneg_eq_emod _ _ (by positivity) hm
      have hrx : Int.tmod (r * x) m = r * x % m :=
        tmod_nonneg_eq_emod _ _ (by positivity) hm
      have hy2 : y / 2 < f := by omega
      have hxmod : (0:ℤ) ≤ x ^ 2 % m := Int.emod_nonneg _ (ne_of_gt hm)
      have hstep : ∀ r' : ℤ, 0 ≤ r' → r' < m →
          modPowLoop f (Int.tmod (x ^ 2) m) (y / 2) m r' = r' * (x ^ 2) ^ (y / 2) % m := by
        intro r' h1 h2
        rw [hx2, ih (y / 2) (x ^ 2 % m) r' m hy2 hm hxmod h1 h2,
          Int.mul_emod, pow_emod, ← Int.mul_emod]
      by_cases hodd : y % 2 = 1
      · simp only [hodd, if_true]
        rw [hstep (Int.tmod (r * x) m)
          (by rw [hrx]; exact Int.emod_nonneg _ (ne_of_gt hm))
          (by rw [hrx]; exact Int.emod_lt_of_pos _ hm)]
        rw [hrx, Int.mul_emod (r * x % m), Int.emod_emod_of_dvd _ dvd_rfl,
          ← Int.mul_emod]
        have hpow : r * x * (x ^ 2) ^ (y / 2) = r * x ^ y := by
          rw [← pow_mul]
          have hy' : 2 * (y / 2) + 1 = y := by omega
          calc r * x * x ^ (2 * (y / 2)) = r * x ^ (2 * (y / 2) + 1) := by ring
            _ = r * x ^ y := by rw [hy']
        rw [hpow]
      · simp only [hodd, if_false]
        rw [hstep r hr hrm, ← pow_mul]
        have hy' : 2 * (y / 2) = y := by omega
        rw [hy']

theorem modPow_ok (x y m : ℤ) (hm : 1 ≤ m) (hy : 0 ≤ y) :
    modPow x y m = .ok (x ^ y.toNat % m) := by
  unfold modPow
  rcases eq_or_lt_of_le hm with h1 | h1
  · simp only [← h1]
    norm_num
  · have hm0 : (0:ℤ) < m := by linarith
    have hnl : ¬ m < 1 := by linarith
    have hne : m ≠ 1 := by linarith
    have hyn : ¬ y < 0 := by linarith
    simp only [hnl, if_false, hne, hyn]
    rw [toZn_eq_emod x m hm0]
    rw [modPowLoop_spec (y.toNat + 1) y.toNat (x % m) 1 m (by omega) hm0
      (Int.emod_nonneg _ (ne_of_gt hm0)) (by norm_num) (by linarith)]
    rw [one_mul, pow_emod]

theorem eGcdLoop_spec :
    ∀ (f a : ℕ), a < f → ∀ (b : ℕ) (x y u v A B : ℤ),
      A * u + B * v = (a : ℤ) → A * x + B * y = (b : ℤ) →
      ∃ X Y : ℤ, eGcdLoop f a b x y u v = ((Nat.gcd a b : ℤ), X, Y) ∧
        A * X + B * Y = (Nat.gcd a b : ℤ) := by
  intro f
  induction f with
  | zero => intro a ha; omega
  | succ f ih =>
    intro a ha b x y u v A B h1 h2
    by_cases h0 : a = 0
    · subst h0
      refine ⟨x, y, ?_, ?_⟩
      · simp [eGcdLoop, Nat.gcd_zero_left]
      · rw [Nat.gcd_zero_left]; exact h2
    · have hred : eGcdLoop (f + 1) a b x y u v =
          eGcdLoop f (b % a) a u v (x - u * ((b / a : ℕ) : ℤ)) (y - v * ((b / a : ℕ) : ℤ)) := by
        simp only [eGcdLoop, h0, if_false]
      have hmod : b % a < f := by
        have := Nat.mod_lt b (show 0 < a by omega)
        omega
      have hinv1 : A * (x - u * ((b / a : ℕ) : ℤ)) + B * (y - v * ((b / a : ℕ) : ℤ)) =
          ((b % a : ℕ) : ℤ) := by
        have hdm : (a : ℤ) * ((b / a : ℕ) : ℤ) + ((b % a : ℕ) : ℤ) = (b : ℤ) := by
          exact_mod_cast Nat.div_add_mod b a
        nlinarith [hdm, h1, h2]
      obtain ⟨X, Y, hXY, hbez⟩ := ih (b % a) hmod a u v
        (x - u * ((b / a : ℕ) : ℤ)) (y - v * ((b / a : ℕ) : ℤ)) A B hinv1 h1
      refine ⟨X, Y, ?_, ?_⟩
      · rw [hred, hXY, Nat.gcd_rec a b]
      · rw [Nat.gcd_rec a b]; exact hbez

theorem eGcd_ok (a b : ℤ) (ha : 1 ≤ a) (hb : 1 ≤ b) :
    ∃ X Y : ℤ, eGcd a b = .ok ((Int.gcd a b : ℤ), X, Y) ∧
      a * X + b * Y = (Int.gcd a b : ℤ) := by
  unfold eGcd
  have hna : ¬ (a < 1 ∨ b < 1) := by push_neg; exact ⟨ha, hb⟩
  simp only [hna, if_false]
  have hca : ((a.toNat : ℕ) : ℤ) = a := Int.toNat_of_nonneg (by linarith)
  have hcb : ((b.toNat : ℕ) : ℤ) = b := Int.toNat_of_nonneg (by linarith)
  obtain ⟨X, Y, hXY, hbez⟩ := eGcdLoop_spec (a.toNat + 1) a.toNat (by omega) b.toNat
    0 1 1 0 a b (by rw [hca]; ring) (by rw [hcb]; ring)
  have hgcd : (Nat.gcd a.toNat b.toNat : ℤ) = (Int.gcd a b : ℤ) := by
    unfold Int.gcd
    have h1 : a.toNat = a.natAbs := by omega
    have h2 : b.toNat = b.natAbs := by omega
    rw [h1, h2]
  refine ⟨X, Y, ?_, ?_⟩
  · rw [hXY, hgcd]
  · rw [← hgcd]; exact hbez

theorem gcd_emod_left_eq (a m : ℤ) : Int.gcd (a % m) m = Int.gcd a m := by
  apply Nat.dvd_antisymm
  · have h1 : ((Int.gcd (a % m) m : ℕ) : ℤ) ∣ a := by
      have hd1 : ((Int.gcd (a % m) m : ℕ) : ℤ) ∣ a % m := Int.gcd_dvd_left
      have hd2 : ((Int.gcd (a % m) m : ℕ) : ℤ) ∣ m := Int.gcd_dvd_right
      have hsum : ((Int.gcd (a % m) m : ℕ) : ℤ) ∣ m * (a / m) + a % m :=
        dvd_add (Dvd.dvd.mul_right hd2 _) hd1
      rwa [Int.ediv_add_emod a m] at hsum
    exact Int.natCast_dvd_natCast.mp (Int.dvd_gcd h1 Int.gcd_dvd_right)
  · have h1 : ((Int.gcd a m : ℕ) : ℤ) ∣ a % m := by
      have hd1 : ((Int.gcd a m : ℕ) : ℤ) ∣ a := Int.gcd_dvd_left
      have hd2 : ((Int.gcd a m : ℕ) : ℤ) ∣ m := Int.gcd_dvd_right
      have hsub : ((Int.gcd a m : ℕ) : ℤ) ∣ a - m * (a / m) :=
        dvd_sub hd1 (Dvd.dvd.mul_right hd2 _)
      have hsplit : a - m * (a / m) = a % m := by
        have := Int.ediv_add_emod a m
        linarith
      rwa [hsplit] at hsub
    exact Int.natCast_dvd_natCast.mp (Int.dvd_gcd h1 Int.gcd_dvd_right)

theorem gcd_pow_eq_one_iff (b m : ℤ) (k : ℕ) (hk : 0 < k) :
    Int.gcd (b ^ k) m = 1 ↔ Int.gcd b m = 1 := by
  unfold Int.gcd
  rw [Int.natAbs_pow]
  exact Nat.coprime_pow_left_iff hk _ _

theorem modInv_ok (c m : ℤ) (hm : 1 < m) (hc0 : 0 ≤ c) (hcm : c < m)
    (hg : Int.gcd c m = 1) : ∃ s, modInv c m = .ok s ∧ s * c % m = 1 := by
  have hm0 : (0:ℤ) < m := by linarith
  have hzn : toZn c m = c := by
    rw [toZn_eq_emod c m hm0]
    exact Int.emod_eq_of_lt hc0 hcm
  have hc1 : 1 ≤ c := by
    rcases eq_or_lt_of_le hc0 with h | h
    · exfalso
      rw [← h] at hg
      have : Int.gcd 0 m = m.natAbs := by simp [Int.gcd]
      rw [this] at hg
      omega
    · linarith
  obtain ⟨X, Y, hXY, hbez⟩ := eGcd_ok c m hc1 (by linarith)
  rw [hg] at hXY hbez
  refine ⟨toZn X m, ?_, ?_⟩
  · unfold modInv
    rw [hzn, hXY]
    norm_num
  · rw [toZn_eq_emod X m hm0, Int.mul_emod, Int.emod_emod_of_dvd _ dvd_rfl,
      ← Int.mul_emod]
    have hXc : X * c = 1 - m * Y := by push_cast at hbez; linarith
    rw [hXc]
    have hsub : (1 - m * Y) % m = 1 % m := by
      have hself := Int.add_mul_emod_self_left (1 : ℤ) m (-Y)
      simp only [mul_neg, ← sub_eq_add_neg] at hself
      exact hself
    rw [hsub]
    exact Int.emod_eq_of_lt (by norm_num) hm

theorem modInv_err (c m : ℤ) (hm : 1 < m) (hc0 : 0 ≤ c) (hcm : c < m)
    (hg : Int.gcd c m ≠ 1) : ∃ msg, modInv c m = .error msg := by
  have hm0 : (0:ℤ) < m := by linarith
  have hzn : toZn c m = c := by
    rw [toZn_eq_emod c m hm0]
    exact Int.emod_eq_of_lt hc0 hcm
  rcases eq_or_lt_of_le hc0 with h | h
  · refine ⟨"a and b must be > 0", ?_⟩
    unfold modInv eGcd
    rw [hzn, ← h]
    norm_num
  · obtain ⟨X, Y, hXY, _⟩ := eGcd_ok c m (by linarith) (by linarith)
    refine ⟨"", ?_⟩
    unfold modInv
    rw [hzn, hXY]
    have hne : ((Int.gcd c m : ℕ) : ℤ) ≠ 1 := by
      intro hcontra
      exact hg (by exact_mod_cast hcontra)
    simp [hne]

theorem modPowLoopF_eq :
    ∀ (f y : ℕ), y < f → ∀ (x m r : ℤ),
      modPowLoopF f x y m r = some (modPowLoop f x y m r) := by
  intro f
  induction f with
  | zero => intro y hy; omega
  | succ f ih =>
    intro y hy x m r
    by_cases h0 : y = 0
    · subst h0
      simp [modPowLoopF, modPowLoop]
    · simp only [modPowLoopF, modPowLoop, h0, if_false]
      exact ih (y / 2) (by omega) _ _ _

theorem eGcdLoopF_eq :
    ∀ (f a : ℕ), a < f → ∀ (b : ℕ) (x y u v : ℤ),
      eGcdLoopF f a b x y u v = some (eGcdLoop f a b x y u v) := by
  intro f
  induction f with
  | zero => intro a ha; omega
  | succ f ih =>
    intro a ha b x y u v
    by_cases h0 : a = 0
    · subst h0
      simp [eGcdLoopF, eGcdLoop]
    · simp only [eGcdLoopF, eGcdLoop, h0, if_false]
      have hmod : b % a < f := by
        have := Nat.mod_lt b (show 0 < a by omega)
        omega
      exact ih (b % a) hmod _ _ _ _ _

/-! ## Claims about the modular arithmetic engine -/

/-- Claim C4: for every base b, exponent e at least 0, and modulus m at
least 1, modPow(b, e, m) returns b to the e mod m normalized into the
interval from 0 inclusive to m exclusive (negative bases folded into the
positive residue class by true modulo); in particular modPow returns 0
whenever m = 1, and modPow(x, 0, m) equals 1 for every m above 1. -/
theorem claim_C4 :
    (∀ x y m : ℤ, 1 ≤ m → 0 ≤ y →
      modPow x y m = .ok (x ^ y.toNat % m) ∧
      0 ≤ x ^ y.toNat % m ∧ x ^ y.toNat % m < m) ∧
    (∀ x y : ℤ, modPow x y 1 = .ok 0) ∧
    (∀ x m : ℤ, 1 < m → modPow x 0 m = .ok 1) := by
  refine ⟨?_, ?_, ?_⟩
  · intro x y m hm hy
    have hm0 : (0:ℤ) < m := by linarith
    exact ⟨modPow_ok x y m hm hy, Int.emod_nonneg _ (ne_of_gt hm0),
      Int.emod_lt_of_pos _ hm0⟩
  · intro x y
    simp [modPow]
  · intro x m hm
    have h := modPow_ok x 0 m (by linarith) le_rfl
    rw [h]
    norm_num
    exact Int.emod_eq_of_lt (by norm_num) hm

theorem claim_C4_witness :
    (modPow (-7) 3 5 = .ok ((-7 : ℤ) ^ (3 : ℤ).toNat % 5) ∧
      0 ≤ (-7 : ℤ) ^ (3 : ℤ).toNat % 5 ∧ (-7 : ℤ) ^ (3 : ℤ).toNat % 5 < 5) ∧
    modPow 2 5 1 = .ok 0 ∧ modPow 4 0 3 = .ok 1 :=
  ⟨claim_C4.1 (-7) 3 5 (by norm_num) (by norm_num), claim_C4.2.1 2 5,
    claim_C4.2.2 4 3 (by norm_num)⟩

/-- Claim C8: for every pair of integers a and b at least 1, eGcd returns
(g, x, y) with g the gcd of a and b and g = a times x plus b times y; for
any input with a below 1 or b below 1 it fails with a domain error. -/
theorem claim_C8 :
    (∀ a b : ℤ, 1 ≤ a → 1 ≤ b →
      ∃ X Y : ℤ, eGcd a b = .ok ((Int.gcd a b : ℤ), X, Y) ∧
        a * X + b * Y = (Int.gcd a b : ℤ)) ∧
    (∀ a b : ℤ, a < 1 ∨ b < 1 → eGcd a b = .error "a and b must be > 0") := by
  refine ⟨eGcd_ok, ?_⟩
  intro a b h
  simp [eGcd, h]

theorem claim_C8_witness :
    (∃ X Y : ℤ, eGcd 6 4 = .ok ((Int.gcd 6 4 : ℤ), X, Y) ∧
      6 * X + 4 * Y = (Int.gcd 6 4 : ℤ)) ∧
    eGcd 0 5 = .error "a and b must be > 0" :=
  ⟨claim_C8.1 6 4 (by norm_num) (by norm_num),
    claim_C8.2 0 5 (Or.inl (by norm_num))⟩

/-- Claim C5: for every base b, exponent e below 0, and modulus m above 1
with b coprime to m, modPow(b, e, m) is the modular inverse of
modPow(b, -e, m), so their product is congruent to 1 modulo m; and when b
and m share a nontrivial factor the call fails with a domain error because
no inverse exists. -/
theorem claim_C5 (b e m : ℤ) (he : e < 0) (hm : 1 < m) :
    (Int.gcd b m = 1 →
      ∃ s t, modPow b e m = .ok s ∧ modPow b (-e) m = .ok t ∧ s * t % m = 1) ∧
    (Int.gcd b m ≠ 1 → ∃ msg, modPow b e m = .error msg) := by
  have hm0 : (0:ℤ) < m := by linarith
  set k := (-e).toNat with hk_def
  have hk : 0 < k := by omega
  set c := b ^ k % m with hc_def
  have hc0 : 0 ≤ c := Int.emod_nonneg _ (ne_of_gt hm0)
  have hcm : c < m := Int.emod_lt_of_pos _ hm0
  have hgc : Int.gcd c m = Int.gcd (b ^ k) m := gcd_emod_left_eq _ m
  have hneg : modPow b e m = modInv c m := by
    unfold modPow
    have h1 : ¬ m < 1 := by linarith
    have h2 : m ≠ 1 := by linarith
    have h3 : e < 0 := he
    simp only [h1, if_false, h2, h3, if_true]
    congr 1
    have hb1 : toZn b m = b % m := toZn_eq_emod b m hm0
    have hb2 : toZn (toZn b m) m = b % m := by
      rw [hb1, toZn_eq_emod _ m hm0, Int.emod_emod_of_dvd _ dvd_rfl]
    rw [hb2]
    rw [modPowLoop_spec (k + 1) k (b % m) 1 m (by omega) hm0
      (Int.emod_nonneg _ (ne_of_gt hm0)) (by norm_num) (by linarith)]
    rw [one_mul, pow_emod]
  have hpos : modPow b (-e) m = .ok c := by
    rw [modPow_ok b (-e) m (by linarith) (by linarith)]
  constructor
  · intro hg
    have hgc1 : Int.gcd c m = 1 := by
      rw [hgc]
      exact (gcd_pow_eq_one_iff b m k hk).mpr hg
    obtain ⟨s, hs, hsc⟩ := modInv_ok c m hm hc0 hcm hgc1
    exact ⟨s, c, by rw [hneg]; exact hs, hpos, hsc⟩
  · intro hg
    have hgc1 : Int.gcd c m ≠ 1 := by
      rw [hgc]
      intro hcontra
      exact hg ((gcd_pow_eq_one_iff b m k hk).mp hcontra)
    obtain ⟨msg, hmsg⟩ := modInv_err c m hm hc0 hcm hgc1
    exact ⟨msg, by rw [hneg]; exact hmsg⟩

theorem claim_C5_witness :
    (∃ s t, modPow 3 (-1) 5 = .ok s ∧ modPow 3 (-(-1)) 5 = .ok t ∧ s * t % 5 = 1) ∧
    (∃ msg, modPow 2 (-1) 4 = .error msg) :=
  ⟨(claim_C5 3 (-1) 5 (by norm_num) (by norm_num)).1 (by decide),
    (claim_C5 2 (-1) 4 (by norm_num) (by norm_num)).2 (by decide)⟩

/-- Claim C10: the square-and-multiply loop of modPow terminates within
e + 1 iterations because the exponent strictly halves (the step-indexed run
of the loop returns some value rather than exhausting its bound), the
iterative loop of eGcd terminates within a + 1 iterations because its first
variable strictly decreases toward 0, and consequently modPow and eGcd are
total (return a value) on their precondition domains. -/
theorem claim_C10 :
    (∀ (x : ℤ) (y : ℕ) (m r : ℤ),
      modPowLoopF (y + 1) x y m r = some (modPowLoop (y + 1) x y m r)) ∧
    (∀ (a b : ℕ) (x y u v : ℤ),
      eGcdLoopF (a + 1) a b x y u v = some (eGcdLoop (a + 1) a b x y u v)) ∧
    (∀ x y m : ℤ, 1 ≤ m → 0 ≤ y → ∃ v, modPow x y m = .ok v) ∧
    (∀ a b : ℤ, 1 ≤ a → 1 ≤ b → ∃ t, eGcd a b = .ok t) := by
  refine ⟨?_, ?_, ?_, ?_⟩
  · intro x y m r
    exact modPowLoopF_eq (y + 1) y (by omega) x m r
  · intro a b x y u v
    exact eGcdLoopF_eq (a + 1) a (by omega) b x y u v
  · intro x y m hm hy
    exact ⟨_, modPow_ok x y m hm hy⟩
  · intro a b ha hb
    obtain ⟨X, Y, h, _⟩ := eGcd_ok a b ha hb
    exact ⟨_, h⟩

theorem claim_C10_witness :
    (∃ v, modPow 3 9 7 = .ok v) ∧ (∃ t, eGcd 9 6 = .ok t) :=
  ⟨claim_C10.2.2.1 3 9 7 (by norm_num) (by norm_num),
    claim_C10.2.2.2 9 6 (by norm_num) (by norm_num)⟩

/-! ## Canonical big-integer hex padding (getPaddedHex, src/index.ts)

A hex string is a list of characters, each either a hex digit with value d
(modelled some d) or the minus sign that JavaScript toString(16) emits for a
negative bigint (modelled none).  The final padded output consists of hex
digits only and is a plain list of digit values. -/

/-- Pad the hex string to even length with one leading 0 character, as in
the source: hex.length % 2 !== 0 ? 0 + hex : hex. -/
def padEven (l : List (Option ℕ)) : List (Option ℕ) :=
  if l.length % 2 ≠ 0 then some 0 :: l else l

/-- Prepend a 00 byte when the leading character is a hex digit 8 through f
(the regular expression of the source tests exactly those characters; the
minus sign does not match). -/
def prependIfHigh (l : List (Option ℕ)) : List (Option ℕ) :=
  match l with
  | some d :: t => if 8 ≤ d then some 0 :: some 0 :: some d :: t else some d :: t
  | other => other

/-- Complement of one character, as the source computes it with
(~parseInt(nibble, 16)) & 0xf: a digit d becomes 15 - d, and the minus sign
(parseInt gives NaN, which ~ and & treat as 0) becomes 15. -/
def nibbleComplement (c : Option ℕ) : ℕ :=
  match c with
  | some d => 15 - d
  | none => 15

/-- Test whether the rendered hex begins with the three characters F F 8,
the condition of the startsWith check in the source. -/
def ff8 (l : List ℕ) : Bool :=
  match l with
  | a :: b :: c :: _ => a == 15 && b == 15 && c == 8
  | _ => false

/-- Embedding of getPaddedHex of the current (native bigint) class in
src/index.ts.  The first step renders v itself with toString(16), which for
a negative bigint is a minus sign followed by the hex digits of the
magnitude; there is no call to abs in this variant. -/
def getPaddedHex (v : ℤ) : List ℕ :=
  let hex0 : List (Option ℕ) :=
    if v < 0 then none :: (hexDigits v.natAbs).map some
    else (hexDigits v.toNat).map some
  let hex1 := prependIfHigh (padEven hex0)
  if v < 0 then
    let hex2 := hexDigits (fromHex (hex1.map nibbleComplement) + 1)
    if ff8 hex2 then hex2.drop 2 else hex2
  else hex1.map (fun c => c.getD 0)

/-- Embedding of getPaddedHex of the legacy (callback BigInteger) class in
the same source file: identical except that the first step renders the
absolute value, bigInt.abs().toString(16). -/
def getPaddedHexLegacy (v : ℤ) : List ℕ :=
  let hex0 : List (Option ℕ) := (hexDigits v.natAbs).map some
  let hex1 := prependIfHigh (padEven hex0)
  if v < 0 then
    let hex2 := hexDigits (fromHex (hex1.map nibbleComplement) + 1)
    if ff8 hex2 then hex2.drop 2 else hex2
  else hex1.map (fun c => c.getD 0)

/-- Modelled from the spec: the exact steps of claim C1 and section 4.3 of
the specification.  Render the absolute value of v as hexadecimal; if the
digit count is odd, prefix one 0; if the leading nibble is 8 through f,
prefix an extra 00 byte; if v is negative, complement every hex nibble,
reinterpret as an integer, add 1, re-render as hex, and strip the two
leading hex characters when the result begins with FF8. -/
def getPaddedHexSpec (v : ℤ) : List ℕ :=
  let magnitude : List (Option ℕ) := (hexDigits v.natAbs).map some
  let padded := prependIfHigh (padEven magnitude)
  if v < 0 then
    let rerendered := hexDigits (fromHex (padded.map nibbleComplement) + 1)
    if ff8 rerendered then rerendered.drop 2 else rerendered
  else padded.map (fun c => c.getD 0)

/-- Interpret a big-endian list of hex digit values as a twos-complement
signed quantity: negative exactly when the leading nibble has its top bit
set, in which case the represented value is the unsigned value minus 16 to
the number of digits. -/
def decodeTC (l : List ℕ) : ℤ :=
  match l with
  | [] => 0
  | d :: t =>
    if 8 ≤ d then (fromHex (d :: t) : ℤ) - 16 ^ (d :: t).length
    else (fromHex (d :: t) : ℤ)

/-- Claim C1 counterexample: at v = -26 the current getPaddedHex renders
the signed string -1a, pads it to 0-1a, and complements the minus sign to
F, producing the four digits f f e 6, while the steps of the claim
(rendering the absolute value 1a) produce e 6. -/
theorem claim_C1_counterexample : getPaddedHex (-26) ≠ getPaddedHexSpec (-26) := by
  decide

/-- Claim C1 (amended): the legacy getPaddedHex produces its output by
exactly the claimed steps for every integer, and the current getPaddedHex
does so for every nonnegative integer; for negative inputs the current
variant renders the signed value (with its minus sign, which the
complement step maps to F) instead of the absolute value, which can leave
an extra leading ff byte in the output. -/
theorem claim_C1 :
    (∀ v : ℤ, getPaddedHexLegacy v = getPaddedHexSpec v) ∧
    (∀ v : ℤ, 0 ≤ v → getPaddedHex v = getPaddedHexSpec v) := by
  constructor
  · intro v
    rfl
  · intro v hv
    have h1 : ¬ v < 0 := by omega
    have h2 : v.toNat = v.natAbs := by omega
    simp only [getPaddedHex, getPaddedHexSpec, h1, if_false, h2]

theorem claim_C1_witness :
    getPaddedHexLegacy (-26) = getPaddedHexSpec (-26) ∧
    (0 ≤ (26:ℤ) ∧ getPaddedHex 26 = getPaddedHexSpec 26) :=
  ⟨claim_C1.1 (-26), by norm_num, claim_C1.2 26 (by norm_num)⟩

/-! ## Round trip of the padding -/

theorem decodeTC_low (d : ℕ) (t : List ℕ) (h : d < 8) :
    decodeTC (d :: t) = (fromHex (d :: t) : ℤ) := by
  simp only [decodeTC, if_neg (by omega : ¬ 8 ≤ d)]

theorem decodeTC_high (d : ℕ) (t : List ℕ) (h : 8 ≤ d) :
    decodeTC (d :: t) = (fromHex (d :: t) : ℤ) - 16 ^ (t.length + 1) := by
  simp only [decodeTC, if_pos h, List.length_cons]

theorem map_some_getD (D : List ℕ) :
    (D.map some).map (fun c => c.getD 0) = D := by
  induction D with
  | nil => rfl
  | cons d t ih => simp [ih]

theorem fromHex_compl_sum (dl : List ℕ) (h : ∀ d ∈ dl, d ≤ 15) :
    fromHex (dl.map (fun d => 15 - d)) + fromHex dl + 1 = 16 ^ dl.length := by
  induction dl with
  | nil => simp [fromHex]
  | cons d t ih =>
    have hd : d ≤ 15 := h d (List.mem_cons_self d t)
    have iht := ih fun x hx => h x (List.mem_cons_of_mem d hx)
    rw [List.map_cons, fromHex_cons, fromHex_cons, List.length_map,
      List.length_cons, pow_succ]
    have hsplit : (15 - d) * 16 ^ t.length + d * 16 ^ t.length = 15 * 16 ^ t.length := by
      rw [← add_mul]
      congr 1
      omega
    nlinarith [iht, hsplit]

theorem nibbleComplement_eq (c : Option ℕ) :
    nibbleComplement c = 15 - c.getD 0 := by
  cases c <;> rfl

theorem hexDigits_head_high (K P n' : ℕ) (hP : P = 16 ^ n')
    (h8 : 8 * P ≤ K) (hlt : K < 16 * P) :
    ∃ d t, hexDigits K = d :: t ∧ t.length = n' ∧ 8 ≤ d ∧
      (∀ x ∈ t, x < 16) ∧ fromHex (d :: t) = K := by
  have hPpos : 0 < P := by
    rw [hP]; positivity
  have hlow : 16 ^ n' ≤ K := by omega
  have hhigh : K < 16 ^ (n' + 1) := by
    rw [pow_succ]
    have : 16 ^ n' * 16 = 16 * P := by rw [hP]; ring
    omega
  have hlen : (hexDigits K).length = n' + 1 := hexDigits_length_eq K n' hlow hhigh
  obtain ⟨d, t, hDK⟩ := List.exists_cons_of_ne_nil (hexDigits_ne_nil K)
  have htlen : t.length = n' := by
    have := hlen
    rw [hDK, List.length_cons] at this
    omega
  have hall : ∀ x ∈ t, x < 16 := by
    intro x hx
    exact hexDigits_lt K x (hDK ▸ List.mem_cons_of_mem d hx)
  have hfromK : fromHex (d :: t) = K := by
    rw [← hDK]; exact fromHex_hexDigits K
  have hft : fromHex t < 16 ^ n' := by
    rw [← htlen]
    exact fromHex_lt t hall
  refine ⟨d, t, hDK, htlen, ?_, hall, hfromK⟩
  by_contra hd7
  push_neg at hd7
  have hdec : fromHex (d :: t) = d * 16 ^ n' + fromHex t := by
    rw [fromHex_cons, htlen]
  have hdP : d * 16 ^ n' ≤ 7 * 16 ^ n' := Nat.mul_le_mul_right _ (by omega)
  rw [hP] at h8
  omega

/-- Core of the round trip for a negative value: if the character list l
(the padded signed hex string) carries the magnitude m in its digit
positions, then complementing every character, adding 1, re-rendering and
conditionally stripping a leading FF yields a digit string whose
twos-complement reading is exactly minus m. -/
theorem neg_decode (l : List (Option ℕ)) (m n' : ℕ)
    (hval : fromHex (l.map (fun c => c.getD 0)) = m)
    (hbound : ∀ c ∈ l, c.getD 0 ≤ 15)
    (hm : 1 ≤ m) (hn : l.length = n' + 1) (hsmall : m < 16 ^ n') :
    decodeTC (if ff8 (hexDigits (fromHex (l.map nibbleComplement) + 1))
              then (hexDigits (fromHex (l.map nibbleComplement) + 1)).drop 2
              else hexDigits (fromHex (l.map nibbleComplement) + 1)) = -(m : ℤ) := by
  have hmapc : l.map nibbleComplement =
      (l.map (fun c => c.getD 0)).map (fun d => 15 - d) := by
    rw [List.map_map]
    apply List.map_congr_left
    intro c _
    exact nibbleComplement_eq c
  have hsum : fromHex (l.map nibbleComplement) + m + 1 = 16 ^ (n' + 1) := by
    rw [hmapc, ← hn, ← List.length_map l (fun c => c.getD 0)]
    have hb : ∀ d ∈ l.map (fun c => c.getD 0), d ≤ 15 := by
      intro d hd
      obtain ⟨c, hc, rfl⟩ := List.mem_map.mp hd
      exact hbound c hc
    have := fromHex_compl_sum (l.map (fun c => c.getD 0)) hb
    rw [hval] at this
    exact this
  set K := fromHex (l.map nibbleComplement) + 1 with hKdef
  set P := (16:ℕ) ^ n' with hPdef
  have h16 : (16:ℕ) ^ (n' + 1) = 16 * P := by rw [hPdef, pow_succ]; ring
  have hKm : K + m = 16 * P := by omega
  have hPpos : 0 < P := by rw [hPdef]; positivity
  have hK8 : 8 * P ≤ K := by omega
  have hKlt : K < 16 * P := by omega
  obtain ⟨d, t, hDK, htlen, hd8, ht16, hfromK⟩ :=
    hexDigits_head_high K P n' hPdef hK8 hKlt
  rw [hDK]
  by_cases hff : ff8 (d :: t) = true
  · -- leading F F 8: the strip branch
    match t, hff with
    | e1 :: e2 :: rest, hff =>
      have hvals : d = 15 ∧ e1 = 15 ∧ e2 = 8 := by
        simp only [ff8, Bool.and_eq_true, beq_iff_eq] at hff
        omega
      obtain ⟨hd15, he1, he2⟩ := hvals
      subst hd15 he1 he2
      simp only [hff, if_true, List.drop_succ_cons, List.drop_zero]
      have hR : rest.length + 2 = n' := by
        simp only [List.length_cons] at htlen
        omega
      have hdecomp : K = 15 * 16 ^ (rest.length + 2) + 15 * 16 ^ (rest.length + 1) +
          fromHex (8 :: rest) := by
        rw [← hfromK, fromHex_cons, fromHex_cons]
        simp only [List.length_cons]
        ring
      rw [decodeTC_high 8 rest le_rfl]
      have hQ2 : (16:ℕ) ^ (rest.length + 2) = 16 * 16 ^ (rest.length + 1) := by
        rw [pow_succ]; ring
      have hPQ : P = 16 * 16 ^ (rest.length + 1) := by
        rw [hPdef, ← hR]; exact hQ2
      have hF8Q : fromHex (8 :: rest) + m = 16 ^ (rest.length + 1) := by omega
      have hF8' : (fromHex (8 :: rest) : ℤ) + (m : ℤ) = (16:ℤ) ^ (rest.length + 1) := by
        exact_mod_cast hF8Q
      linarith
  · rw [if_neg hff]
    rw [decodeTC_high d t hd8, htlen]
    have hKmN : K + m = 16 ^ (n' + 1) := by omega
    have hKm' : (K : ℤ) + (m : ℤ) = (16:ℤ) ^ (n' + 1) := by exact_mod_cast hKmN
    rw [hfromK]
    linarith

/-- Claim C2: for every integer v (negative, positive, zero, high-bit-set,
even or odd digit count), reading the hex output of the padding function as
a twos-complement signed byte string recovers v exactly. -/
theorem claim_C2 (v : ℤ) : decodeTC (getPaddedHex v) = v := by
  by_cases hv : v < 0
  · -- negative v
    have hm1 : 1 ≤ v.natAbs := by omega
    simp only [getPaddedHex, hv, if_true]
    set D := hexDigits v.natAbs with hDdef
    set l := prependIfHigh (padEven (none :: D.map some)) with hldef
    have hpre : l = padEven (none :: D.map some) := by
      rw [hldef]
      unfold padEven
      by_cases hpar : (none :: D.map some : List (Option ℕ)).length % 2 ≠ 0
      · rw [if_pos hpar]
        simp [prependIfHigh]
      · rw [if_neg hpar]
        rfl
    have hlval : fromHex (l.map (fun c => c.getD 0)) = v.natAbs := by
      rw [hpre]
      unfold padEven
      split
      · simp only [List.map_cons, Option.getD_some, Option.getD_none,
          fromHex_zero_cons, map_some_getD]
        exact fromHex_hexDigits v.natAbs
      · simp only [List.map_cons, Option.getD_none, fromHex_zero_cons,
          map_some_getD]
        exact fromHex_hexDigits v.natAbs
    have hlbound : ∀ c ∈ l, c.getD 0 ≤ 15 := by
      intro c hc
      rw [hpre] at hc
      unfold padEven at hc
      have hcore : ∀ x ∈ (none :: D.map some : List (Option ℕ)), x.getD 0 ≤ 15 := by
        intro x hx
        rcases List.mem_cons.mp hx with h | h
        · subst h; simp
        · obtain ⟨d, hd, rfl⟩ := List.mem_map.mp h
          have := hexDigits_lt v.natAbs d hd
          simp
          omega
      split at hc
      · rcases List.mem_cons.mp hc with h | h
        · subst h; simp
        · exact hcore c h
      · exact hcore c hc
    have hlen1 : D.length + 1 ≤ l.length := by
      rw [hpre]
      unfold padEven
      split <;> simp
    have hDpos : 1 ≤ D.length := by
      have hne := hexDigits_ne_nil v.natAbs
      rw [← hDdef] at hne
      have := List.length_pos.mpr hne
      omega
    have hn : l.length = (l.length - 1) + 1 := by omega
    have hsmall : v.natAbs < 16 ^ (l.length - 1) := by
      have h1 : v.natAbs < 16 ^ D.length := by
        rw [hDdef]; exact lt_pow_length_hexDigits v.natAbs
      have h2 : (16:ℕ) ^ D.length ≤ 16 ^ (l.length - 1) :=
        Nat.pow_le_pow_right (by norm_num) (by omega)
      omega
    have hres := neg_decode l v.natAbs (l.length - 1) hlval hlbound hm1 hn hsmall
    rw [hres]
    omega
  · -- nonnegative v
    simp only [getPaddedHex, hv, if_false]
    have hcast : (v.toNat : ℤ) = v := Int.toNat_of_nonneg (by omega)
    obtain ⟨d, D', hD⟩ := List.exists_cons_of_ne_nil (hexDigits_ne_nil v.toNat)
    have hval : fromHex (hexDigits v.toNat) = v.toNat := fromHex_hexDigits v.toNat
    unfold padEven
    by_cases hpar : ((hexDigits v.toNat).map some).length % 2 ≠ 0
    · rw [if_pos hpar]
      have hpih : prependIfHigh (some 0 :: (hexDigits v.toNat).map some) =
          some 0 :: (hexDigits v.toNat).map some := by
        simp [prependIfHigh]
      rw [hpih]
      simp only [List.map_cons, Option.getD_some, map_some_getD]
      rw [decodeTC_low 0 (hexDigits v.toNat) (by norm_num), fromHex_zero_cons, hval,
        hcast]
    · rw [if_neg hpar]
      rw [hD, List.map_cons]
      have hd16 : d < 16 := hexDigits_lt v.toNat d (hD ▸ List.mem_cons_self d D')
      by_cases hd8 : 8 ≤ d
      · have hpih : prependIfHigh (some d :: D'.map some) =
            some 0 :: some 0 :: some d :: D'.map some := by
          simp [prependIfHigh, hd8]
        rw [hpih]
        simp only [List.map_cons, Option.getD_some, map_some_getD]
        rw [decodeTC_low 0 (0 :: d :: D') (by norm_num), fromHex_zero_cons,
          fromHex_zero_cons, ← hD, hval, hcast]
      · have hpih : prependIfHigh (some d :: D'.map some) = some d :: D'.map some := by
          simp [prependIfHigh, hd8]
        rw [hpih]
        simp only [List.map_cons, Option.getD_some, map_some_getD]
        rw [decodeTC_low d D' (by omega), ← hD, hval, hcast]

/-! ## SRP protocol engine (src/index.ts, current class) -/

/-- The 3072-bit group prime N of the engine, the INIT_N hex constant of
src/index.ts. -/
def NSRP : ℤ := 0xFFFFFFFFFFFFFFFFC90FDAA22168C234C4C6628B80DC1CD129024E088A67CC74020BBEA63B139B22514A08798E3404DDEF9519B3CD3A431B302B0A6DF25F14374FE1356D6D51C245E485B576625E7EC6F44C42E9A637ED6B0BFF5CB6F406B7EDEE386BFB5A899FA5AE9F24117C4B1FE649286651ECE45B3DC2007CB8A163BF0598DA48361C55D39A69163FA8FD24CF5F83655D23DCA3AD961C62F356208552BB9ED529077096966D670C354E4ABC9804F1746C08CA18217C32905E462E36CE3BE39E772C180E86039B2783A2EC07A28FB5C55DF06F4C52C9DE2BCBF6955817183995497CEA956AE515D2261898FA051015728E5A8AAAC42DAD33170D04507A33A85521ABDF1CBA64ECFB850458DBEF0A8AEA71575D060C7DB3970F85A6E1E4C7ABF5AE8CDB0933D71E8C94E04A25619DCEE3D2261AD2EE6BF12FFA06D98A0864D87602733EC86A64521F2B18177B200CBBE117577A615D6C770988C0BAD946E208E24FA074E5AB3143DB5BFCE0FD108E4B82D120A93AD2CAFFFFFFFFFFFFFFFF

theorem NSRP_gt_one : (1:ℤ) < NSRP := by norm_num [NSRP]

/-- Embedding of calculateS of the current class: the generator g is 2, the
multiplier k and the stored ephemeral exponent a are instance fields and
appear as parameters.  Mirrors
t0 = modPow(g, x, N) * k; t1 = B - t0; t2 = a + U * x; modPow(t1, t2, N). -/
def calculateS (k a x B U : ℤ) : Except String ℤ := do
  let gx ← modPow 2 x NSRP
  let t0 := gx * k
  let t1 := B - t0
  let t2 := a + U * x
  modPow t1 t2 NSRP

/-- Claim C3: for every private key x, server value B, scrambling value u,
stored ephemeral exponent a and multiplier k (all the nonnegative integers
the protocol derives them as), the shared secret computed by calculateS
equals (B minus k times (g to the x mod N)) raised to (a plus u times x),
mod N, and the returned value lies in the interval from 0 inclusive to N
exclusive. -/
theorem claim_C3 (k a x B U : ℤ) (ha : 0 ≤ a) (hx : 0 ≤ x) (hU : 0 ≤ U) :
    calculateS k a x B U =
      .ok ((B - k * (2 ^ x.toNat % NSRP)) ^ (a + U * x).toNat % NSRP) ∧
    0 ≤ (B - k * (2 ^ x.toNat % NSRP)) ^ (a + U * x).toNat % NSRP ∧
    (B - k * (2 ^ x.toNat % NSRP)) ^ (a + U * x).toNat % NSRP < NSRP := by
  have hN1 : (1:ℤ) ≤ NSRP := le_of_lt NSRP_gt_one
  have hN0 : (0:ℤ) < NSRP := lt_trans one_pos NSRP_gt_one
  have ht2 : 0 ≤ a + U * x := by positivity
  have h1 := modPow_ok 2 x NSRP hN1 hx
  have h2 := modPow_ok (B - 2 ^ x.toNat % NSRP * k) (a + U * x) NSRP hN1 ht2
  refine ⟨?_, Int.emod_nonneg _ (ne_of_gt hN0), Int.emod_lt_of_pos _ hN0⟩
  unfold calculateS
  rw [h1]
  show modPow (B - 2 ^ x.toNat % NSRP * k) (a + U * x) NSRP = _
  rw [h2, mul_comm (2 ^ x.toNat % NSRP) k]

theorem claim_C3_witness :
    calculateS 3 0 0 5 0 =
      .ok ((5 - 3 * (2 ^ (0:ℤ).toNat % NSRP)) ^ ((0:ℤ) + 0 * 0).toNat % NSRP) ∧
    0 ≤ (5 - 3 * (2 ^ (0:ℤ).toNat % NSRP)) ^ ((0:ℤ) + 0 * 0).toNat % NSRP ∧
    (5 - 3 * (2 ^ (0:ℤ).toNat % NSRP)) ^ ((0:ℤ) + 0 * 0).toNat % NSRP < NSRP :=
  claim_C3 3 0 0 5 0 le_rfl le_rfl le_rfl

/-- Embedding of calculateSRPAValue of the current class: the 16 random
bytes drawn from the platform randomness source are external and appear as
the nonnegative exponent a; the function computes A = modPow(g, a, N) and
immediately returns its hex rendering.  Unlike the legacy class (and unlike
this function's own documentation comment), the current code performs no
check that A mod N is nonzero and has no error path after modPow. -/
def calculateSRPAValue (a : ℤ) : Except String (List ℕ) := do
  let A ← modPow 2 a NSRP
  pure (hexDigits A.toNat)

/-- Claim C6 (code evaluation): for every drawn exponent, the current
calculateSRPAValue returns the hex rendering of A unconditionally; there is
no validation of A mod N and no protocol-abort error path, contradicting
the claim and the function's own documentation comment. -/
theorem claim_C6 (n : ℕ) :
    calculateSRPAValue (n : ℤ) = .ok (hexDigits ((2 ^ n % NSRP).toNat)) := by
  unfold calculateSRPAValue
  have h := modPow_ok 2 (n : ℤ) NSRP (le_of_lt NSRP_gt_one) (by positivity)
  rw [h]
  show Except.ok (hexDigits ((2 ^ ((n:ℤ)).toNat % NSRP).toNat)) = _
  rw [Int.toNat_natCast]

/-! ## Password claim signature pipeline (src/index.ts, current class)

Challenge parameters SALT and SRP_B arrive as character strings and are
parsed with the BigInt hex conversion; every other hex value in the
pipeline is produced internally as a digit list.  The error channel keeps
the JavaScript exception kinds apart:

* syntaxError is the SyntaxError that BigInt raises on a string that is not
  a hex numeral; the source does not catch it, so it propagates out of
  calculatePasswordClaimSignature as an unhandled exception;
* err msg is an Error(msg) thrown by the engine itself;
* rangeError msg is a RangeError escaping from the arithmetic utilities. -/

inductive SrpErr where
  | syntaxError : SrpErr
  | err : String → SrpErr
  | rangeError : String → SrpErr
deriving DecidableEq, Repr

/-- Value of one hex character, as the BigInt hex conversion accepts them:
digits and letters of either case; none for every other character. -/
def hexCharVal (c : Char) : Option ℕ :=
  if '0' ≤ c ∧ c ≤ '9' then some (c.toNat - 48)
  else if 'a' ≤ c ∧ c ≤ 'f' then some (c.toNat - 87)
  else if 'A' ≤ c ∧ c ≤ 'F' then some (c.toNat - 55)
  else none

def parseHexDigits : List Char → Option (List ℕ)
  | [] => some []
  | c :: cs =>
    match hexCharVal c, parseHexDigits cs with
    | some d, some ds => some (d :: ds)
    | _, _ => none

/-- The StrWhiteSpaceChar set of the ECMAScript StringToBigInt grammar:
TAB, LF, VT, FF, CR, space, NBSP, the Unicode space separators, the two
line separators, and the byte order mark. -/
def isJsWhitespace (c : Char) : Bool :=
  let n := c.toNat
  n == 9 || n == 10 || n == 11 || n == 12 || n == 13 || n == 32 || n == 160 ||
  n == 5760 || (decide (8192 ≤ n) && decide (n ≤ 8202)) || n == 8232 ||
  n == 8233 || n == 8239 || n == 8287 || n == 12288 || n == 65279

/-- Strip trailing whitespace, as StringToBigInt trims around the numeral.
Only the trailing side can reach the appended challenge string, because the
constructed string starts with the two characters 0x. -/
def trimTrailingWs (s : List Char) : List Char :=
  (s.reverse.dropWhile isJsWhitespace).reverse

/-- Embedding of the BigInt (0x followed by s) conversion applied to the
SALT and SRP_B challenge strings.  StringToBigInt trims whitespace around
the numeral, so trailing whitespace of s is removed first; then the
conversion raises a SyntaxError when nothing remains or any remaining
character is not a hex digit, and otherwise yields the numeric value (a hex
numeral of odd length is accepted). -/
def parseHexJS (s : List Char) : Except SrpErr ℤ :=
  match parseHexDigits (trimTrailingWs s) with
  | none => .error .syntaxError
  | some [] => .error .syntaxError
  | some ds => .ok ((fromHex ds : ℕ) : ℤ)

/-- The same BigInt conversion applied to a hex string the engine built
itself out of digit values (getHexFromBytes output); it can only fail, with
the same SyntaxError, when the digest it renders is empty. -/
def parseHexNib (l : List ℕ) : Except SrpErr ℤ :=
  if l = [] then .error .syntaxError else .ok ((fromHex l : ℕ) : ℤ)

/-- Consecutive two-character chunks of the match result against the
regular expression (..): a trailing lone character is dropped. -/
def pairBytes : List ℕ → List ℕ
  | a :: b :: rest => (16 * a + b) :: pairBytes rest
  | _ => []

/-- Embedding of getBytesFromHex of the current class on an
internally-generated digit list: the match call yields null (and the
function throws) exactly when the string holds fewer than two characters;
otherwise the chunk values, a trailing lone nibble silently dropped. -/
def getBytesFromHexN (l : List ℕ) : Except SrpErr (List ℕ) :=
  if l.length < 2 then .error (.err "Invalid Hex String.")
  else .ok (pairBytes l)

/-- Embedding of getHexFromBytes: each byte rendered in hex and left-padded
to two characters. -/
def hexFromBytes (l : List ℕ) : List ℕ :=
  (l.map (fun b =>
    let h := hexDigits b
    if h.length = 1 then 0 :: h else h)).flatten

/-- Embedding of calculateU of the current class: hash the concatenated
padded hex of A and B, render the digest in hex, convert with BigInt, and
reject a zero value.  The SHA-256 primitive is the external parameter
sha. -/
def calculateU (sha : List ℕ → List ℕ) (A B : ℤ) : Except SrpErr ℤ := do
  let bytes ← getBytesFromHexN (getPaddedHex A ++ getPaddedHex B)
  let U ← parseHexNib (hexFromBytes (sha bytes))
  if U = 0 then .error (.err "U cannot be zero.") else pure U

/-- A RangeError escaping from the arithmetic utilities, tagged in the
shared error channel. -/
def liftRange : Except String ℤ → Except SrpErr ℤ
  | .ok v => .ok v
  | .error s => .error (.rangeError s)

/-- The fixed info byte sequence: the UTF-8 bytes of the context string
Caldera Derived Key followed by the one byte 1. -/
def infoBits : List ℕ :=
  [67, 97, 108, 100, 101, 114, 97, 32, 68, 101, 114, 105, 118, 101, 100,
   32, 75, 101, 121, 1]

/-- Embedding of calculatePasswordClaimSignature of the current class.
External collaborators appear as parameters: sha is unkeyed SHA-256, hmac
is HMAC-SHA-256 taking the secret first; the instance fields k, A, a are
parameters; userPool, userId and password are the UTF-8 byte sequences of
the strings (58 is the colon separator); secretBlock stands for the
URL-safe-Base64-decoded SECRET_BLOCK bytes and timestamp for the freshly
generated timestamp bytes, both produced by external collaborators.  The
final standard-Base64 rendering (btoa) is external as well, so the function
returns the signature bytes. -/
def calculatePasswordClaimSignature
    (sha : List ℕ → List ℕ) (hmac : List ℕ → List ℕ → List ℕ)
    (k A a : ℤ) (userPool userId password secretBlock timestamp : List ℕ)
    (SALT SRPB : List Char) : Except SrpErr (List ℕ) := do
  let serverBValue ← parseHexJS SRPB
  if Int.tmod serverBValue NSRP = 0 then .error (.err "Invalid server public key")
  else do
    let U ← calculateU sha A serverBValue
    let serverSalt ← parseHexJS SALT
    let userPasswordHash := sha (userPool ++ userId ++ [58] ++ password)
    let saltedInput ← getBytesFromHexN
      (getPaddedHex serverSalt ++ hexFromBytes userPasswordHash)
    let x ← parseHexNib (hexFromBytes (sha saltedInput))
    let S ← liftRange (calculateS k a x serverBValue U)
    let concatenated := userPool ++ userId ++ secretBlock ++ timestamp
    let padSBytes ← getBytesFromHexN (getPaddedHex S)
    let padUBytes ← getBytesFromHexN (getPaddedHex U)
    let hmacSecret := hmac padUBytes padSBytes
    let awsHashHmac := hmac hmacSecret infoBits
    pure (hmac (awsHashHmac.take 16) concatenated)

/-- Claim C7: for every challenge input whose SRP_B value is congruent to 0
modulo N, calculatePasswordClaimSignature aborts with the protocol error
Invalid server public key, and for every input whose derived scrambling
value u equals 0 it aborts with the protocol error U cannot be zero; in
both cases the abort happens for every multiplier, ephemeral exponent,
password, salt and secret block (so before and independently of the shared
secret computation), and no signature is returned. -/
theorem claim_C7 (sha : List ℕ → List ℕ) (hmac : List ℕ → List ℕ → List ℕ)
    (k A a : ℤ) (userPool userId password secretBlock timestamp : List ℕ)
    (SALT SRPB : List Char) :
    (∀ B : ℤ, parseHexJS SRPB = .ok B → Int.tmod B NSRP = 0 →
      calculatePasswordClaimSignature sha hmac k A a userPool userId password
        secretBlock timestamp SALT SRPB = .error (.err "Invalid server public key")) ∧
    (∀ B : ℤ, parseHexJS SRPB = .ok B → Int.tmod B NSRP ≠ 0 →
      ∀ bs : List ℕ, getBytesFromHexN (getPaddedHex A ++ getPaddedHex B) = .ok bs →
      parseHexNib (hexFromBytes (sha bs)) = .ok 0 →
      calculatePasswordClaimSignature sha hmac k A a userPool userId password
        secretBlock timestamp SALT SRPB = .error (.err "U cannot be zero.")) := by
  constructor
  · intro B hB h0
    unfold calculatePasswordClaimSignature
    rw [hB]
    show (if Int.tmod B NSRP = 0 then _ else _ : Except SrpErr (List ℕ)) = _
    rw [if_pos h0]
  · intro B hB h0 bs hbs hU
    unfold calculatePasswordClaimSignature
    rw [hB]
    show (if Int.tmod B NSRP = 0 then _ else _ : Except SrpErr (List ℕ)) = _
    rw [if_neg h0]
    unfold calculateU
    rw [hbs]
    show (parseHexNib (hexFromBytes (sha bs)) >>= _) >>= _ = _
    rw [hU]
    rfl

theorem claim_C7_witness :
    calculatePasswordClaimSignature (fun _ => [0]) (fun _ _ => [1]) 0 1 0 [] [] []
      [] [] [] ['0'] = .error (.err "Invalid server public key") ∧
    calculatePasswordClaimSignature (fun _ => [0]) (fun _ _ => [1]) 0 1 0 [] [] []
      [] [] [] ['1'] = .error (.err "U cannot be zero.") :=
  ⟨(claim_C7 (fun _ => [0]) (fun _ _ => [1]) 0 1 0 [] [] [] [] [] [] ['0']).1
      0 (by rfl) (by decide),
    (claim_C7 (fun _ => [0]) (fun _ _ => [1]) 0 1 0 [] [] [] [] [] [] ['1']).2
      1 (by rfl) (by decide) [1, 1] (by rfl) (by rfl)⟩

/-- Claim C9 counterexample: with SRP_B the non-hex string zz, the BigInt
conversion raises a SyntaxError which calculatePasswordClaimSignature does
not catch, so the caller sees an unhandled exception, not the distinct
input-format error of the claim (the only input-format error in the code,
Invalid Hex String., is raised elsewhere); and the odd-length hex string
abc, which the claim says must be rejected as malformed, parses silently as
the number 2748. -/
theorem claim_C9_counterexample :
    calculatePasswordClaimSignature (fun _ => [1]) (fun _ _ => [1]) 0 1 0 [] [] []
      [] [] [] ['z', 'z'] = .error .syntaxError ∧
    SrpErr.syntaxError ≠ SrpErr.err "Invalid Hex String." ∧
    parseHexJS ['a', 'b', 'c'] = .ok 2748 := by
  refine ⟨by rfl, by decide, by rfl⟩

theorem parseHexDigits_isNone (s : List Char) (c : Char) (hc : c ∈ s)
    (hnone : hexCharVal c = none) : parseHexDigits s = none := by
  induction s with
  | nil => cases hc
  | cons d t ih =>
    rcases List.mem_cons.mp hc with h | h
    · subst h
      unfold parseHexDigits
      rw [hnone]
    · unfold parseHexDigits
      rw [ih h]
      cases hexCharVal d <;> rfl

theorem parseHexDigits_isSome (s : List Char)
    (h : ∀ c ∈ s, (hexCharVal c).isSome) :
    ∃ ds : List ℕ, parseHexDigits s = some ds ∧ ds.length = s.length := by
  induction s with
  | nil => exact ⟨[], rfl, rfl⟩
  | cons d t ih =>
    obtain ⟨ds, hds, hlen⟩ := ih fun c hc => h c (List.mem_cons_of_mem d hc)
    obtain ⟨v, hv⟩ := Option.isSome_iff_exists.mp (h d (List.mem_cons_self d t))
    refine ⟨v :: ds, ?_, by simp [hlen]⟩
    unfold parseHexDigits
    rw [hv, hds]

/-- Claim C9 (amended): malformed challenge hex does not produce a distinct
input-format error.  The BigInt conversion first trims trailing whitespace
of SALT or SRP_B (so whitespace-suffixed hex is silently accepted); if what
remains is empty or contains a non-hex character, the conversion raises a
SyntaxError, which propagates out of calculatePasswordClaimSignature
unhandled; and an odd-length string of valid hex digits is accepted and
silently parsed as an integer (the claimed rejection of odd-length hex does
not exist in the code). -/
theorem claim_C9_amended :
    (∀ (sha : List ℕ → List ℕ) (hmac : List ℕ → List ℕ → List ℕ) (k A a : ℤ)
       (userPool userId password secretBlock timestamp : List ℕ)
       (SALT SRPB : List Char),
      parseHexJS SRPB = .error .syntaxError →
      calculatePasswordClaimSignature sha hmac k A a userPool userId password
        secretBlock timestamp SALT SRPB = .error .syntaxError) ∧
    (∀ (sha : List ℕ → List ℕ) (hmac : List ℕ → List ℕ → List ℕ) (k A a : ℤ)
       (userPool userId password secretBlock timestamp : List ℕ)
       (SALT SRPB : List Char) (B u : ℤ) (bs : List ℕ),
      parseHexJS SRPB = .ok B → Int.tmod B NSRP ≠ 0 →
      getBytesFromHexN (getPaddedHex A ++ getPaddedHex B) = .ok bs →
      parseHexNib (hexFromBytes (sha bs)) = .ok u → u ≠ 0 →
      parseHexJS SALT = .error .syntaxError →
      calculatePasswordClaimSignature sha hmac k A a userPool userId password
        secretBlock timestamp SALT SRPB = .error .syntaxError) ∧
    (∀ s : List Char, (∃ c ∈ trimTrailingWs s, hexCharVal c = none) →
      parseHexJS s = .error .syntaxError) ∧
    (∀ s : List Char, trimTrailingWs s ≠ [] →
      (∀ c ∈ trimTrailingWs s, (hexCharVal c).isSome) →
      ∃ n : ℤ, parseHexJS s = .ok n) ∧
    (∀ (s : List Char) (c : Char), isJsWhitespace c = true →
      parseHexJS (s ++ [c]) = parseHexJS s) := by
  refine ⟨?_, ?_, ?_, ?_, ?_⟩
  · intro sha hmac k A a up uid pw sb ts SALT SRPB hB
    unfold calculatePasswordClaimSignature
    rw [hB]
    rfl
  · intro sha hmac k A a up uid pw sb ts SALT SRPB B u bs hB h0 hbs hu hu0 hSALT
    unfold calculatePasswordClaimSignature
    rw [hB]
    show (if Int.tmod B NSRP = 0 then _ else _ : Except SrpErr (List ℕ)) = _
    rw [if_neg h0]
    unfold calculateU
    rw [hbs]
    show ((parseHexNib (hexFromBytes (sha bs)) >>= _) >>= _ : Except SrpErr (List ℕ)) = _
    rw [hu]
    show ((if u = 0 then _ else pure u : Except SrpErr ℤ) >>= _ : Except SrpErr (List ℕ)) = _
    rw [if_neg hu0]
    show (parseHexJS SALT >>= _ : Except SrpErr (List ℕ)) = _
    rw [hSALT]
    rfl
  · intro s ⟨c, hc, hnone⟩
    unfold parseHexJS
    rw [parseHexDigits_isNone (trimTrailingWs s) c hc hnone]
  · intro s hne hall
    obtain ⟨ds, hds, hlen⟩ := parseHexDigits_isSome (trimTrailingWs s) hall
    cases ds with
    | nil =>
      exfalso
      apply hne
      cases htr : trimTrailingWs s with
      | nil => rfl
      | cons a t => rw [htr] at hlen; simp at hlen
    | cons d t =>
      refine ⟨((fromHex (d :: t) : ℕ) : ℤ), ?_⟩
      unfold parseHexJS
      rw [hds]
  · intro s c hws
    unfold parseHexJS trimTrailingWs
    rw [List.reverse_append, List.reverse_singleton, List.singleton_append,
      List.dropWhile_cons_of_pos hws]

theorem claim_C9_amended_witness :
    calculatePasswordClaimSignature (fun _ => [1]) (fun _ _ => [1]) 0 1 0 [] [] []
      [] [] [] ['x'] = .error .syntaxError ∧
    calculatePasswordClaimSignature (fun _ => [3]) (fun _ _ => [1]) 0 1 0 [] [] []
      [] [] ['g'] ['1'] = .error .syntaxError ∧
    parseHexJS ['q'] = .error .syntaxError ∧
    (∃ n : ℤ, parseHexJS ['a', 'b', 'c'] = .ok n) ∧
    parseHexJS (['a', 'b'] ++ [' ']) = parseHexJS ['a', 'b'] :=
  ⟨claim_C9_amended.1 (fun _ => [1]) (fun _ _ => [1]) 0 1 0 [] [] [] [] [] []
      ['x'] (by rfl),
    claim_C9_amended.2.1 (fun _ => [3]) (fun _ _ => [1]) 0 1 0 [] [] [] [] []
      ['g'] ['1'] 1 3 [1, 1] (by rfl) (by decide) (by rfl) (by rfl) (by decide)
      (by rfl),
    claim_C9_amended.2.2.1 ['q'] ⟨'q', by decide, by rfl⟩,
    claim_C9_amended.2.2.2.1 ['a', 'b', 'c'] (by decide)
      (by intro c hc; fin_cases hc <;> decide),
    claim_C9_amended.2.2.2.2 ['a', 'b'] ' ' (by rfl)⟩

end CognitoSRP
